import Mathlib

/-!
Shallow embedding of the poseidonito repository: the Poseidon permutation
(`src/permutation.rs`) and the sponge construction (`src/sponge.rs`),
together with proofs of the specification claims about them.

The state of the permutation is a function `Fin T → F` (the Rust fixed-size
array `[F; T]`), and the round constants are a `List F` (the Rust slice
`&[F]`).  Rust indexing that can panic (out-of-bounds slice access, the
`assert!` in `Sponge::new`) is modelled with `Option`: `none` is a panic.
-/

/-- The `PoseidonConfig` trait of `src/configurations/poseidon_config.rs`:
round counts, MDS matrix, round constants and S-box. -/
structure PoseidonConfig (F : Type) (T : Nat) where
  R_F : Nat
  R_P : Nat
  mds_matrix : Fin T → Fin T → F
  round_constants : List F
  sbox : F → F

variable {F : Type} [Field F] {T : Nat}

/-- `matrix_vector_mul` of `src/permutation.rs`: `result[i]` starts at zero and
accumulates `matrix[i][j] * vector[j]` over `j = 0..T`. -/
def matrix_vector_mul (matrix : Fin T → Fin T → F) (vector : Fin T → F) : Fin T → F :=
  fun i => (List.finRange T).foldl (fun acc j => acc + matrix i j * vector j) 0

/-- The add-round-constant loop shared by all three round blocks of `perm`:
`for i in 0..T { input_words[i] += round_constants[counter]; counter += 1 }`.
Lane `i` receives constant `ctr + i`; the counter advances by `T`.  The loop
panics (here: `none`) exactly when it runs past the end of the slice, i.e.
when `ctr + T > round_constants.length` (for `T > 0` this is the first
out-of-bounds index; for `T = 0` the loop body never runs and `ctr` stays
put, so the bound is vacuous inside `perm`, where `ctr` is then always 0). -/
def addRoundConstants (rc : List F) (st : Fin T → F) (ctr : Nat) :
    Option ((Fin T → F) × Nat) :=
  if h : ctr + T ≤ rc.length then
    some (fun i => st i + rc.get ⟨ctr + i.val, by have := i.isLt; omega⟩, ctr + T)
  else
    none

/-- One iteration of the first or last loop of `perm` (a full round): add the
next `T` round constants, apply the S-box to every lane, then multiply by the
MDS matrix. -/
def fullRound (cfg : PoseidonConfig F T) (s : (Fin T → F) × Nat) :
    Option ((Fin T → F) × Nat) :=
  match addRoundConstants cfg.round_constants s.1 s.2 with
  | none => none
  | some (st, ctr) =>
      some (matrix_vector_mul cfg.mds_matrix (fun i => cfg.sbox (st i)), ctr)

/-- One iteration of the middle loop of `perm`: add the next `T` round
constants, apply the S-box to lane 0 only (`input_words[0] = sbox(&input_words[0])`,
which panics when `T = 0`), then multiply by the MDS matrix. -/
def partRound (cfg : PoseidonConfig F T) (s : (Fin T → F) × Nat) :
    Option ((Fin T → F) × Nat) :=
  match addRoundConstants cfg.round_constants s.1 s.2 with
  | none => none
  | some (st, ctr) =>
      if h : 0 < T then
        some (matrix_vector_mul cfg.mds_matrix
          (Function.update st ⟨0, h⟩ (cfg.sbox (st ⟨0, h⟩))), ctr)
      else
        none

/-- `for _ in 0..n { step }` over a fallible round body. -/
def iterRounds {α : Type} (step : α → Option α) : Nat → α → Option α
  | 0, s => some s
  | n + 1, s => (step s).bind (iterRounds step n)

/-- The body of `perm` from `src/permutation.rs`, keeping the round-constant
counter visible: `R_f = R_F / 2` full rounds, then `R_P` rounds with the
S-box on lane 0 only, then `R_f` full rounds again, with the counter running
through all three blocks. -/
def permFull (cfg : PoseidonConfig F T) (input_words : Fin T → F) :
    Option ((Fin T → F) × Nat) :=
  (iterRounds (fullRound cfg) (cfg.R_F / 2) (input_words, 0)).bind fun s1 =>
    (iterRounds (partRound cfg) cfg.R_P s1).bind fun s2 =>
      iterRounds (fullRound cfg) (cfg.R_F / 2) s2

/-- `perm` of `src/permutation.rs`: the final state of `permFull`
(the counter is local to the call). -/
def perm (cfg : PoseidonConfig F T) (input_words : Fin T → F) :
    Option (Fin T → F) :=
  (permFull cfg input_words).map Prod.fst

/-- The `Sponge` struct of `src/sponge.rs`: a state of `N` field elements.
The permutation (the `P : Permutation<F, N>` type parameter) is passed to the
operations as a function on states. -/
structure Sponge (F : Type) (RATE N : Nat) where
  state : Fin N → F

/-- `Sponge::new` of `src/sponge.rs`: `assert!(RATE <= N)` (a panic, modelled
as `none`, when `RATE > N`), then the state is set to `start_state` verbatim. -/
def Sponge.new (RATE N : Nat) (start_state : Fin N → F) :
    Option (Sponge F RATE N) :=
  if RATE ≤ N then some ⟨start_state⟩ else none

/-- `Sponge::absorb` of `src/sponge.rs`:
`for i in 0..RATE { state[i] += input[i] }; P::apply(&mut state)`.
Each lane `i < RATE` gains `input[i]`; lanes `RATE..N` are untouched by the
loop; the write `state[i]` panics at `i = N` when `RATE > N`. -/
def Sponge.absorb {RATE N : Nat} (p : (Fin N → F) → Fin N → F)
    (s : Sponge F RATE N) (input : Fin RATE → F) : Option (Sponge F RATE N) :=
  if _h : RATE ≤ N then
    some ⟨p fun j => if h2 : j.val < RATE then s.state j + input ⟨j.val, h2⟩ else s.state j⟩
  else
    none

/-- `Sponge::squeeze` of `src/sponge.rs`: the output is the first `RATE`
lanes of the state as read before anything else happens (the unsafe pointer
cast, valid only when `RATE ≤ N`), then `P::apply` runs on the full state,
then the saved output is returned. -/
def Sponge.squeeze {RATE N : Nat} (p : (Fin N → F) → Fin N → F)
    (s : Sponge F RATE N) : Option ((Fin RATE → F) × Sponge F RATE N) :=
  if h : RATE ≤ N then
    some (fun i => s.state (Fin.castLE h i), ⟨p s.state⟩)
  else
    none

/-- `x5_254_3::hash` of `src/lib.rs`, with the concrete BN254 Poseidon
permutation abstracted as the function `p`: a `RATE = 1`, `N = 3` sponge is
built on the all-zero state, each input element is absorbed as a one-element
block in order, and one block is squeezed. -/
def sponge_hash (p : (Fin 3 → F) → Fin 3 → F) (input : List F) :
    Option (Fin 1 → F) := do
  let s ← Sponge.new 1 3 (fun _ => (0 : F))
  let s ← input.foldlM (fun s x => Sponge.absorb p s ![x]) s
  let (out, _) ← Sponge.squeeze p s
  pure out

/-! ### Concrete configurations and permutations used by the claims
(mirroring the configurations of the Rust test modules) -/

instance : Fact (Nat.Prime 11) := ⟨by norm_num⟩

/-- The configuration of claim C1 (the `SboxConfig` of the Rust tests):
identity MDS matrix, all-zero round constants, S-box `x ↦ x^5`. -/
def sboxFiveCfg (F : Type) [Field F] : PoseidonConfig F 3 where
  R_F := 2
  R_P := 3
  mds_matrix := fun i j => if i = j then 1 else 0
  round_constants := List.replicate 15 0
  sbox := fun x => x ^ 5

/-- The configuration of claim C3 (the `MatrixConfig` of the Rust tests):
matrix `[[0,1,0],[0,0,1],[2,0,0]]`, zero round constants, identity S-box. -/
def shiftCfg (F : Type) [Field F] : PoseidonConfig F 3 where
  R_F := 2
  R_P := 0
  mds_matrix := ![![0, 1, 0], ![0, 0, 1], ![2, 0, 0]]
  round_constants := List.replicate 6 0
  sbox := fun x => x

/-- A configuration with odd `R_F` for claim C10: `T = 1`, `R_F = 3`,
`R_P = 0`, identity matrix, zero constants, S-box `x ↦ x^5`. -/
def oddCfg (G : Type) [Field G] : PoseidonConfig G 1 where
  R_F := 3
  R_P := 0
  mds_matrix := fun i j => if i = j then 1 else 0
  round_constants := List.replicate 3 0
  sbox := fun x => x ^ 5

/-- A configuration whose round-constant sequence is too short for its round
counts (`T = 1`, `R_F = 2`, `R_P = 0` needs 2 constants, none are given). -/
def shortCfg : PoseidonConfig (ZMod 11) 1 where
  R_F := 2
  R_P := 0
  mds_matrix := fun _ _ => 1
  round_constants := []
  sbox := fun x => x

/-- The `RoundConstantConfig` of the Rust tests: identity matrix, identity
S-box, the 15 constants `1,10,100, 2,20,200, …, 5,50,500`. -/
def constCfg : PoseidonConfig (ZMod 11) 3 where
  R_F := 2
  R_P := 3
  mds_matrix := fun i j => if i = j then 1 else 0
  round_constants :=
    [1, 10, 100, 2, 20, 200, 3, 30, 300, 4, 40, 400, 5, 50, 500]
  sbox := fun x => x

/-- Left-rotate-by-one on 4 lanes (the `SimplePermutation` of the Rust
tests at `N = 4`). -/
def rot4 {G : Type} [Field G] : (Fin 4 → G) → Fin 4 → G :=
  fun st i => st (i + 1)

/-- Left-rotate-by-one on 2 lanes. -/
def rot2 {G : Type} [Field G] : (Fin 2 → G) → Fin 2 → G :=
  fun st i => st (i + 1)

/-- A non-identity permutation on 2 lanes that only alters lane 1 (the
capacity lane for `RATE = 1`). -/
def capPerm : (Fin 2 → ZMod 11) → Fin 2 → ZMod 11 :=
  fun st => ![st 0, st 1 + 1]

/-- Left-rotate-by-one on 3 lanes. -/
def rot3 {G : Type} [Field G] : (Fin 3 → G) → Fin 3 → G :=
  fun st i => st (i + 1)

/-! ### General lemmas about the linear layer and round-constant step -/

theorem matrix_vector_mul_apply (M : Fin T → Fin T → F) (v : Fin T → F) (i : Fin T) :
    matrix_vector_mul M v i = ∑ j, M i j * v j := by
  rw [Fin.sum_univ_def]
  unfold matrix_vector_mul
  rw [← List.foldl_map, List.sum_eq_foldl]

theorem matrix_vector_mul_id (v : Fin T → F) :
    matrix_vector_mul (fun i j => if i = j then (1 : F) else 0) v = v := by
  funext i
  rw [matrix_vector_mul_apply]
  simp [ite_mul, Finset.sum_ite_eq]

theorem addRoundConstants_replicate (n : Nat) (st : Fin T → F) (ctr : Nat)
    (h : ctr + T ≤ n) :
    addRoundConstants (List.replicate n (0 : F)) st ctr = some (st, ctr + T) := by
  unfold addRoundConstants
  rw [dif_pos (by simpa using h)]
  simp only [Option.some.injEq, Prod.mk.injEq, and_true]
  funext i
  rw [List.get_eq_getElem, List.getElem_replicate, add_zero]

/-! ### C1: the round structure of `perm` at `T = 3`, `R_F = 2`, `R_P = 3` -/

theorem sboxFiveCfg_RF : (sboxFiveCfg F).R_F = 2 := rfl

theorem fullRound_sboxFive (st : Fin 3 → F) (ctr : Nat) (h : ctr + 3 ≤ 15) :
    fullRound (sboxFiveCfg F) (st, ctr) = some (fun i => st i ^ 5, ctr + 3) := by
  unfold fullRound
  rw [show (sboxFiveCfg F).round_constants = List.replicate 15 (0 : F) from rfl,
    addRoundConstants_replicate 15 st ctr h]
  show some (matrix_vector_mul (sboxFiveCfg F).mds_matrix
      (fun i => (sboxFiveCfg F).sbox (st i)), ctr + 3) = _
  rw [show (sboxFiveCfg F).mds_matrix = (fun i j => if i = j then (1 : F) else 0) from rfl,
    matrix_vector_mul_id]
  rfl

theorem partRound_sboxFive (st : Fin 3 → F) (ctr : Nat) (h : ctr + 3 ≤ 15) :
    partRound (sboxFiveCfg F) (st, ctr) =
      some (Function.update st 0 (st 0 ^ 5), ctr + 3) := by
  unfold partRound
  rw [show (sboxFiveCfg F).round_constants = List.replicate 15 (0 : F) from rfl,
    addRoundConstants_replicate 15 st ctr h]
  show dite _ _ _ = _
  rw [dif_pos (by norm_num : 0 < 3)]
  rw [show (sboxFiveCfg F).mds_matrix = (fun i j => if i = j then (1 : F) else 0) from rfl,
    matrix_vector_mul_id]
  rfl

/-- C1: for every field, with `T = 3`, `R_F = 2`, `R_P = 3`, identity MDS
matrix, all-zero round constants and S-box `x ↦ x^5`, the permutation sends
`[a, b, c]` to `[a^(5^5), b^(5^2), c^(5^2)]`: lane 0 goes through the S-box
five times (one per full round in each block plus one per partial round),
every other lane exactly twice. -/
theorem C1_round_structure (F : Type) [Field F] (a b c : F) :
    perm (sboxFiveCfg F) ![a, b, c] = some ![a ^ 3125, b ^ 25, c ^ 25] := by
  unfold perm permFull
  rw [sboxFiveCfg_RF, show (sboxFiveCfg F).R_P = 3 from rfl]
  norm_num
  simp only [iterRounds]
  rw [fullRound_sboxFive _ 0 (by norm_num)]
  simp only [Option.some_bind, Option.bind_some]
  rw [partRound_sboxFive _ 3 (by norm_num)]
  simp only [Option.some_bind, Option.bind_some]
  rw [partRound_sboxFive _ 6 (by norm_num)]
  simp only [Option.some_bind, Option.bind_some]
  rw [partRound_sboxFive _ 9 (by norm_num)]
  simp only [Option.some_bind, Option.bind_some]
  rw [fullRound_sboxFive _ 12 (by norm_num)]
  simp only [Option.map_some', Option.some.injEq]
  funext i
  fin_cases i <;>
    simp [Function.update_apply, Matrix.cons_val_zero, Matrix.cons_val_one, Matrix.head_cons] <;>
    ring

/-! ### Counter bookkeeping for the three round blocks of `perm` -/

theorem addRoundConstants_eq_some {rc : List F} {st : Fin T → F} {ctr : Nat}
    {out : (Fin T → F) × Nat} (h : addRoundConstants rc st ctr = some out) :
    ctr + T ≤ rc.length ∧ out.2 = ctr + T := by
  unfold addRoundConstants at h
  by_cases hlen : ctr + T ≤ rc.length
  · rw [dif_pos hlen] at h
    cases h
    exact ⟨hlen, rfl⟩
  · rw [dif_neg hlen] at h
    cases h

theorem addRoundConstants_of_le (rc : List F) (st : Fin T → F) (ctr : Nat)
    (h : ctr + T ≤ rc.length) :
    addRoundConstants rc st ctr =
      some (fun i => st i + rc.get ⟨ctr + i.val, by have := i.isLt; omega⟩, ctr + T) :=
  dif_pos h

theorem fullRound_eq_some {cfg : PoseidonConfig F T} {s out : (Fin T → F) × Nat}
    (h : fullRound cfg s = some out) :
    s.2 + T ≤ cfg.round_constants.length ∧ out.2 = s.2 + T := by
  unfold fullRound at h
  cases hrc : addRoundConstants cfg.round_constants s.1 s.2 with
  | none => rw [hrc] at h; cases h
  | some p =>
      obtain ⟨st1, ctr1⟩ := p
      rw [hrc] at h
      cases h
      have := addRoundConstants_eq_some hrc
      exact ⟨this.1, this.2⟩

theorem partRound_eq_some {cfg : PoseidonConfig F T} {s out : (Fin T → F) × Nat}
    (h : partRound cfg s = some out) :
    s.2 + T ≤ cfg.round_constants.length ∧ out.2 = s.2 + T := by
  unfold partRound at h
  cases hrc : addRoundConstants cfg.round_constants s.1 s.2 with
  | none => rw [hrc] at h; cases h
  | some p =>
      obtain ⟨st1, ctr1⟩ := p
      rw [hrc] at h
      dsimp only at h
      by_cases hT : 0 < T
      · rw [dif_pos hT] at h
        cases h
        have := addRoundConstants_eq_some hrc
        exact ⟨this.1, this.2⟩
      · rw [dif_neg hT] at h
        cases h

theorem fullRound_some (cfg : PoseidonConfig F T) (s : (Fin T → F) × Nat)
    (h : s.2 + T ≤ cfg.round_constants.length) :
    ∃ st', fullRound cfg s = some (st', s.2 + T) := by
  unfold fullRound
  rw [addRoundConstants_of_le _ _ _ h]
  exact ⟨_, rfl⟩

theorem partRound_some (cfg : PoseidonConfig F T) (s : (Fin T → F) × Nat)
    (hT : 0 < T) (h : s.2 + T ≤ cfg.round_constants.length) :
    ∃ st', partRound cfg s = some (st', s.2 + T) := by
  unfold partRound
  rw [addRoundConstants_of_le _ _ _ h]
  dsimp only
  rw [dif_pos hT]
  exact ⟨_, rfl⟩

theorem iterRounds_ctr {step : ((Fin T → F) × Nat) → Option ((Fin T → F) × Nat)}
    (hstep : ∀ s out, step s = some out → out.2 = s.2 + T) :
    ∀ (n : Nat) (s out : (Fin T → F) × Nat),
      iterRounds step n s = some out → out.2 = s.2 + n * T := by
  intro n
  induction n with
  | zero =>
      intro s out h
      cases h
      simp
  | succ k ih =>
      intro s out h
      simp only [iterRounds] at h
      cases hs : step s with
      | none => rw [hs] at h; cases h
      | some s1 =>
          rw [hs, Option.some_bind] at h
          have h1 := hstep s s1 hs
          have h2 := ih s1 out h
          rw [h2, h1, Nat.succ_mul]
          ring

theorem iterRounds_some {L : Nat} {step : ((Fin T → F) × Nat) → Option ((Fin T → F) × Nat)}
    (hstep : ∀ s : (Fin T → F) × Nat, s.2 + T ≤ L → ∃ st', step s = some (st', s.2 + T)) :
    ∀ (n : Nat) (s : (Fin T → F) × Nat), s.2 + n * T ≤ L →
      ∃ st', iterRounds step n s = some (st', s.2 + n * T) := by
  intro n
  induction n with
  | zero =>
      intro s _
      exact ⟨s.1, by simp [iterRounds]⟩
  | succ k ih =>
      intro s h
      rw [Nat.succ_mul] at h
      obtain ⟨st1, h1⟩ := hstep s (by
        have hk : s.2 + T ≤ s.2 + k * T + T := by omega
        omega)
      obtain ⟨st2, h2⟩ := ih (st1, s.2 + T) (by
        show s.2 + T + k * T ≤ L
        omega)
      refine ⟨st2, ?_⟩
      simp only [iterRounds, h1, Option.some_bind]
      rw [h2]
      congr 1
      rw [Nat.succ_mul]
      ring_nf

theorem iterRounds_le {L : Nat} {step : ((Fin T → F) × Nat) → Option ((Fin T → F) × Nat)}
    (hstep : ∀ s out, step s = some out → s.2 + T ≤ L ∧ out.2 = s.2 + T) :
    ∀ (n : Nat) (s out : (Fin T → F) × Nat),
      iterRounds step (n + 1) s = some out → s.2 + (n + 1) * T ≤ L := by
  intro n
  induction n with
  | zero =>
      intro s out h
      simp only [iterRounds] at h
      cases hs : step s with
      | none => rw [hs] at h; cases h
      | some s1 =>
          have := hstep s s1 hs
          omega
  | succ k ih =>
      intro s out h
      simp only [iterRounds] at h
      cases hs : step s with
      | none => rw [hs] at h; cases h
      | some s1 =>
          rw [hs, Option.some_bind] at h
          have h1 := hstep s s1 hs
          have h2 := ih s1 out (by simpa only [iterRounds] using h)
          have e1 : s1.2 = s.2 + T := h1.2
          rw [e1] at h2
          have : s.2 + (k + 1 + 1) * T = s.2 + T + (k + 1) * T := by ring
          omega

theorem addRoundConstants_take {rc : List F} {m : Nat} (st : Fin T → F) (ctr : Nat)
    (hm : ctr + T ≤ m) (hml : m ≤ rc.length) :
    addRoundConstants (rc.take m) st ctr = addRoundConstants rc st ctr := by
  have h1 : ctr + T ≤ (rc.take m).length := by rw [List.length_take]; omega
  have h2 : ctr + T ≤ rc.length := by omega
  rw [addRoundConstants_of_le _ _ _ h1, addRoundConstants_of_le _ _ _ h2]
  simp only [Option.some.injEq, Prod.mk.injEq, and_true]
  funext i
  simp [List.get_eq_getElem]

theorem fullRound_take {cfg : PoseidonConfig F T} {m : Nat} (s : (Fin T → F) × Nat)
    (hm : s.2 + T ≤ m) (hml : m ≤ cfg.round_constants.length) :
    fullRound { cfg with round_constants := cfg.round_constants.take m } s =
      fullRound cfg s := by
  unfold fullRound
  rw [show ({ cfg with round_constants := cfg.round_constants.take m } :
      PoseidonConfig F T).round_constants = cfg.round_constants.take m from rfl,
    addRoundConstants_take s.1 s.2 hm hml]

theorem partRound_take {cfg : PoseidonConfig F T} {m : Nat} (s : (Fin T → F) × Nat)
    (hm : s.2 + T ≤ m) (hml : m ≤ cfg.round_constants.length) :
    partRound { cfg with round_constants := cfg.round_constants.take m } s =
      partRound cfg s := by
  unfold partRound
  rw [show ({ cfg with round_constants := cfg.round_constants.take m } :
      PoseidonConfig F T).round_constants = cfg.round_constants.take m from rfl,
    addRoundConstants_take s.1 s.2 hm hml]

theorem iterRounds_full_take {cfg : PoseidonConfig F T} {m : Nat}
    (hml : m ≤ cfg.round_constants.length) :
    ∀ (n : Nat) (s : (Fin T → F) × Nat), s.2 + n * T ≤ m →
      iterRounds (fullRound { cfg with round_constants := cfg.round_constants.take m }) n s =
        iterRounds (fullRound cfg) n s := by
  intro n
  induction n with
  | zero => intro s _; rfl
  | succ k ih =>
      intro s h
      rw [Nat.succ_mul] at h
      simp only [iterRounds]
      rw [fullRound_take s (by omega) hml]
      cases hs : fullRound cfg s with
      | none => rfl
      | some s1 =>
          simp only [Option.some_bind]
          exact ih s1 (by have := (fullRound_eq_some hs).2; omega)

theorem iterRounds_part_take {cfg : PoseidonConfig F T} {m : Nat}
    (hml : m ≤ cfg.round_constants.length) :
    ∀ (n : Nat) (s : (Fin T → F) × Nat), s.2 + n * T ≤ m →
      iterRounds (partRound { cfg with round_constants := cfg.round_constants.take m }) n s =
        iterRounds (partRound cfg) n s := by
  intro n
  induction n with
  | zero => intro s _; rfl
  | succ k ih =>
      intro s h
      rw [Nat.succ_mul] at h
      simp only [iterRounds]
      rw [partRound_take s (by omega) hml]
      cases hs : partRound cfg s with
      | none => rfl
      | some s1 =>
          simp only [Option.some_bind]
          exact ih s1 (by have := (partRound_eq_some hs).2; omega)

theorem permFull_consumed {cfg : PoseidonConfig F T} {st : Fin T → F}
    {out : (Fin T → F) × Nat} (h : permFull cfg st = some out) :
    out.2 = cfg.R_F / 2 * T + cfg.R_P * T + cfg.R_F / 2 * T ∧
    cfg.R_F / 2 * T + cfg.R_P * T + cfg.R_F / 2 * T ≤ cfg.round_constants.length := by
  unfold permFull at h
  cases h1 : iterRounds (fullRound cfg) (cfg.R_F / 2) (st, 0) with
  | none => rw [h1] at h; cases h
  | some s1 =>
      rw [h1, Option.some_bind] at h
      cases h2 : iterRounds (partRound cfg) cfg.R_P s1 with
      | none => rw [h2] at h; cases h
      | some s2 =>
          rw [h2, Option.some_bind] at h
          have c1 : s1.2 = 0 + cfg.R_F / 2 * T :=
            iterRounds_ctr (fun _ _ hs => (fullRound_eq_some hs).2) _ _ _ h1
          have c2 : s2.2 = s1.2 + cfg.R_P * T :=
            iterRounds_ctr (fun _ _ hs => (partRound_eq_some hs).2) _ _ _ h2
          have c3 : out.2 = s2.2 + cfg.R_F / 2 * T :=
            iterRounds_ctr (fun _ _ hs => (fullRound_eq_some hs).2) _ _ _ h
          constructor
          · rw [c3, c2, c1]
            ring
          · rcases Nat.eq_zero_or_pos (cfg.R_F / 2) with hf | hf
            · rcases Nat.eq_zero_or_pos cfg.R_P with hp | hp
              · simp [hf, hp]
              · obtain ⟨mp, hmp⟩ := Nat.exists_eq_succ_of_ne_zero (Nat.pos_iff_ne_zero.mp hp)
                rw [hmp] at h2
                have hb := iterRounds_le
                  (fun _ _ hs => ⟨(partRound_eq_some hs).1, (partRound_eq_some hs).2⟩)
                  mp s1 s2 h2
                rw [c1, hf] at hb
                rw [hf, hmp]
                simpa using hb
            · obtain ⟨mf, hmf⟩ := Nat.exists_eq_succ_of_ne_zero (Nat.pos_iff_ne_zero.mp hf)
              rw [hmf] at h
              have hb := iterRounds_le
                (fun _ _ hs => ⟨(fullRound_eq_some hs).1, (fullRound_eq_some hs).2⟩)
                mf s2 out h
              rw [c2, c1, hmf] at hb
              rw [hmf]
              calc (mf + 1) * T + cfg.R_P * T + (mf + 1) * T
                  = 0 + (mf + 1) * T + cfg.R_P * T + (mf + 1) * T := by ring
                _ ≤ cfg.round_constants.length := hb

theorem permFull_some_of (cfg : PoseidonConfig F T) (st : Fin T → F) (hT : 0 < T)
    (hle : cfg.R_F / 2 * T + cfg.R_P * T + cfg.R_F / 2 * T ≤ cfg.round_constants.length) :
    ∃ st', permFull cfg st =
      some (st', cfg.R_F / 2 * T + cfg.R_P * T + cfg.R_F / 2 * T) := by
  obtain ⟨st1, h1⟩ := iterRounds_some
    (fun s hs => fullRound_some cfg s hs) (cfg.R_F / 2) (st, 0) (by omega)
  obtain ⟨st2, h2⟩ := iterRounds_some
    (fun s hs => partRound_some cfg s hT hs) cfg.R_P (st1, (0 : Nat) + cfg.R_F / 2 * T)
    (by dsimp only
        generalize hA : cfg.R_F / 2 * T = A at hle ⊢
        generalize hB : cfg.R_P * T = B at hle ⊢
        omega)
  obtain ⟨st3, h3⟩ := iterRounds_some
    (fun s hs => fullRound_some cfg s hs) (cfg.R_F / 2)
    (st2, (0 : Nat) + cfg.R_F / 2 * T + cfg.R_P * T)
    (by dsimp only
        generalize hA : cfg.R_F / 2 * T = A at hle ⊢
        generalize hB : cfg.R_P * T = B at hle ⊢
        omega)
  refine ⟨st3, ?_⟩
  unfold permFull
  rw [h1, Option.some_bind, h2, Option.some_bind, h3]
  congr 2
  omega

theorem perm_take {cfg : PoseidonConfig F T} (st : Fin T → F) (m : Nat)
    (hm : cfg.R_F / 2 * T + cfg.R_P * T + cfg.R_F / 2 * T ≤ m)
    (hml : m ≤ cfg.round_constants.length) :
    perm { cfg with round_constants := cfg.round_constants.take m } st =
      perm cfg st := by
  unfold perm permFull
  rw [show ({ cfg with round_constants := cfg.round_constants.take m } :
        PoseidonConfig F T).R_F = cfg.R_F from rfl,
      show ({ cfg with round_constants := cfg.round_constants.take m } :
        PoseidonConfig F T).R_P = cfg.R_P from rfl]
  rw [iterRounds_full_take hml (cfg.R_F / 2) (st, 0) (by
    dsimp only
    generalize hA : cfg.R_F / 2 * T = A at hm ⊢
    generalize hB : cfg.R_P * T = B at hm ⊢
    omega)]
  cases h1 : iterRounds (fullRound cfg) (cfg.R_F / 2) (st, 0) with
  | none => rfl
  | some s1 =>
      have c1 : s1.2 = 0 + cfg.R_F / 2 * T :=
        iterRounds_ctr (fun _ _ hs => (fullRound_eq_some hs).2) _ _ _ h1
      simp only [Option.some_bind]
      rw [iterRounds_part_take hml cfg.R_P s1 (by
        rw [c1]
        generalize hA : cfg.R_F / 2 * T = A at hm ⊢
        generalize hB : cfg.R_P * T = B at hm ⊢
        omega)]
      cases h2 : iterRounds (partRound cfg) cfg.R_P s1 with
      | none => rfl
      | some s2 =>
          have c2 : s2.2 = s1.2 + cfg.R_P * T :=
            iterRounds_ctr (fun _ _ hs => (partRound_eq_some hs).2) _ _ _ h2
          simp only [Option.some_bind]
          rw [iterRounds_full_take hml (cfg.R_F / 2) s2 (by
            rw [c2, c1]
            generalize hA : cfg.R_F / 2 * T = A at hm ⊢
            generalize hB : cfg.R_P * T = B at hm ⊢
            omega)]

/-! ### A tiny configuration with odd `R_F` (`T = 1`, `R_F = 3`, `R_P = 0`) -/

theorem fullRound_oddCfg {G : Type} [Field G] (st : Fin 1 → G) (ctr : Nat)
    (h : ctr + 1 ≤ 3) :
    fullRound (oddCfg G) (st, ctr) = some (fun i => st i ^ 5, ctr + 1) := by
  unfold fullRound
  rw [show (oddCfg G).round_constants = List.replicate 3 (0 : G) from rfl,
    addRoundConstants_replicate 3 st ctr h]
  show some (matrix_vector_mul (oddCfg G).mds_matrix
      (fun i => (oddCfg G).sbox (st i)), ctr + 1) = _
  rw [show (oddCfg G).mds_matrix = (fun i j => if i = j then (1 : G) else 0) from rfl,
    matrix_vector_mul_id]
  rfl

theorem perm_oddCfg {G : Type} [Field G] (a : G) :
    perm (oddCfg G) ![a] = some ![a ^ 25] := by
  unfold perm permFull
  rw [show (oddCfg G).R_F = 3 from rfl, show (oddCfg G).R_P = 0 from rfl]
  norm_num
  simp only [iterRounds]
  rw [fullRound_oddCfg _ 0 (by norm_num)]
  simp only [Option.some_bind, Option.bind_some]
  rw [fullRound_oddCfg _ 1 (by norm_num)]
  simp only [Option.map_some', Option.some.injEq]
  funext i
  fin_cases i
  simp [Matrix.cons_val_zero]
  ring

/-- Claim C2: for every configuration with even `R_F` (and a nonempty state),
one `perm` call consumes round constants from index 0 in order and consumes
exactly `T·(R_F+R_P)` of them: the call succeeds exactly when the sequence is
at least that long, the final counter is exactly `T·(R_F+R_P)`, and the
result only depends on the first `T·(R_F+R_P)` constants. -/
theorem C2_round_constant_consumption (F : Type) [Field F] (T : Nat)
    (cfg : PoseidonConfig F T) (st : Fin T → F) (hT : 0 < T)
    (hEven : cfg.R_F % 2 = 0) :
    ((∃ out, perm cfg st = some out) ↔
        T * (cfg.R_F + cfg.R_P) ≤ cfg.round_constants.length) ∧
    (∀ out, permFull cfg st = some out → out.2 = T * (cfg.R_F + cfg.R_P)) ∧
    (T * (cfg.R_F + cfg.R_P) ≤ cfg.round_constants.length →
      perm { cfg with round_constants :=
        cfg.round_constants.take (T * (cfg.R_F + cfg.R_P)) } st = perm cfg st) := by
  have hsum : cfg.R_F / 2 * T + cfg.R_P * T + cfg.R_F / 2 * T
      = T * (cfg.R_F + cfg.R_P) := by
    have h2 : cfg.R_F / 2 + cfg.R_F / 2 = cfg.R_F := by omega
    calc cfg.R_F / 2 * T + cfg.R_P * T + cfg.R_F / 2 * T
        = (cfg.R_F / 2 + cfg.R_F / 2 + cfg.R_P) * T := by ring
      _ = (cfg.R_F + cfg.R_P) * T := by rw [h2]
      _ = T * (cfg.R_F + cfg.R_P) := by ring
  refine ⟨⟨?_, ?_⟩, ?_, ?_⟩
  · rintro ⟨out, hout⟩
    unfold perm at hout
    cases hpf : permFull cfg st with
    | none => rw [hpf] at hout; cases hout
    | some o => rw [← hsum]; exact (permFull_consumed hpf).2
  · intro hle
    obtain ⟨st', h⟩ := permFull_some_of cfg st hT (by rw [hsum]; exact hle)
    exact ⟨st', by unfold perm; rw [h]; rfl⟩
  · intro out hout
    rw [← hsum]
    exact (permFull_consumed hout).1
  · intro hle
    exact perm_take st _ (by rw [hsum]) hle

/-- Witness for C2 at the `RoundConstantConfig` of the Rust tests. -/
theorem C2_round_constant_consumption_witness :
    (0 < 3 ∧ constCfg.R_F % 2 = 0) ∧
    (((∃ out, perm constCfg ![1, 1, 1] = some out) ↔
        3 * (constCfg.R_F + constCfg.R_P) ≤ constCfg.round_constants.length) ∧
    (∀ out, permFull constCfg ![1, 1, 1] = some out →
        out.2 = 3 * (constCfg.R_F + constCfg.R_P)) ∧
    (3 * (constCfg.R_F + constCfg.R_P) ≤ constCfg.round_constants.length →
      perm { constCfg with round_constants :=
        constCfg.round_constants.take (3 * (constCfg.R_F + constCfg.R_P)) } ![1, 1, 1] =
        perm constCfg ![1, 1, 1])) :=
  ⟨⟨by norm_num, by decide⟩,
    C2_round_constant_consumption (ZMod 11) 3 constCfg ![1, 1, 1] (by norm_num) (by decide)⟩

/-- Claim C3: the linear layer is the row-major matrix–vector product
`result[i] = Σ_j mds_matrix[i][j] · state[j]`, and in particular one full
round with zero constants, identity S-box and matrix `[[0,1,0],[0,0,1],[2,0,0]]`
maps `[a,b,c]` to `[b,c,2a]`. -/
theorem C3_matrix_application (F : Type) [Field F] :
    (∀ (T : Nat) (M : Fin T → Fin T → F) (v : Fin T → F) (i : Fin T),
        matrix_vector_mul M v i = ∑ j, M i j * v j) ∧
    (∀ a b c : F, fullRound (shiftCfg F) (![a, b, c], 0) = some (![b, c, 2 * a], 3)) := by
  constructor
  · intro T M v i
    exact matrix_vector_mul_apply M v i
  · intro a b c
    unfold fullRound
    rw [show (shiftCfg F).round_constants = List.replicate 6 (0 : F) from rfl,
      addRoundConstants_replicate 6 ![a, b, c] 0 (by norm_num)]
    show some (matrix_vector_mul (shiftCfg F).mds_matrix
        (fun i => (shiftCfg F).sbox (![a, b, c] i)), 0 + 3) = _
    simp only [Option.some.injEq, Prod.mk.injEq]
    refine ⟨?_, by norm_num⟩
    funext i
    rw [matrix_vector_mul_apply]
    show (∑ j, (shiftCfg F).mds_matrix i j * ![a, b, c] j) = _
    fin_cases i <;>
      simp [shiftCfg, Fin.sum_univ_three] <;>
      ring

/-- Claim C4: sponge construction fails exactly when `RATE > N`; when
`RATE ≤ N` it succeeds and the internal state is the given initial state
verbatim. -/
theorem C4_sponge_new (F : Type) [Field F] (RATE N : Nat) (start : Fin N → F) :
    (RATE ≤ N → Sponge.new RATE N start = some ⟨start⟩) ∧
    (N < RATE → Sponge.new (F := F) RATE N start = none) := by
  constructor
  · intro h
    unfold Sponge.new
    rw [if_pos h]
  · intro h
    unfold Sponge.new
    rw [if_neg (by omega)]

/-- Witness for C4 at `RATE = 2`, `N = 3` and at `RATE = 5`, `N = 4`. -/
theorem C4_sponge_new_witness :
    ((2 ≤ 3) ∧ Sponge.new 2 3 (fun _ => (0 : ZMod 11)) = some ⟨fun _ => 0⟩) ∧
    ((4 < 5) ∧ Sponge.new (F := ZMod 11) 5 4 (fun _ => 0) = none) :=
  ⟨⟨by norm_num, (C4_sponge_new (ZMod 11) 2 3 (fun _ => 0)).1 (by norm_num)⟩,
    ⟨by norm_num, (C4_sponge_new (ZMod 11) 5 4 (fun _ => 0)).2 (by norm_num)⟩⟩

/-- Claim C5: on a validly constructed sponge, `absorb` adds `input[i]` into
`state[i]` for `i < RATE`, leaves lanes `RATE..N` untouched by the addition,
and then applies the permutation exactly once to the full state; in addition
the spec's fixed vector: absorbing `[1,2]` then `[1,4]` into a 4-lane zero
state under left-rotate-by-one yields `[4,0,1,3]`. -/
theorem C5_absorb (F : Type) [Field F] (RATE N : Nat)
    (p : (Fin N → F) → Fin N → F) (s : Sponge F RATE N) (input : Fin RATE → F)
    (h : RATE ≤ N) :
    (∃ mixed : Fin N → F,
        s.absorb p input = some ⟨p mixed⟩ ∧
        (∀ j : Fin N, ∀ hj : j.val < RATE, mixed j = s.state j + input ⟨j.val, hj⟩) ∧
        (∀ j : Fin N, RATE ≤ j.val → mixed j = s.state j)) ∧
    ((((Sponge.new 2 4 (fun _ => (0 : ZMod 11))).bind
        (fun s => s.absorb rot4 ![1, 2])).bind
      (fun s => s.absorb rot4 ![1, 4])).map (fun s => List.ofFn s.state) =
      some [4, 0, 1, 3]) := by
  refine ⟨⟨fun j => if h2 : j.val < RATE then s.state j + input ⟨j.val, h2⟩ else s.state j,
    ?_, ?_, ?_⟩, by decide⟩
  · unfold Sponge.absorb
    rw [dif_pos h]
  · intro j hj
    dsimp only
    rw [dif_pos hj]
  · intro j hj
    dsimp only
    rw [dif_neg (by omega)]

/-- Witness for C5 at `RATE = 1`, `N = 2`, state `[3,5]`, input `[2]`. -/
theorem C5_absorb_witness :
    (1 ≤ 2) ∧
    ((∃ mixed : Fin 2 → ZMod 11,
        Sponge.absorb rot2 (⟨![3, 5]⟩ : Sponge (ZMod 11) 1 2) ![2] = some ⟨rot2 mixed⟩ ∧
        (∀ j : Fin 2, ∀ hj : j.val < 1,
          mixed j = Sponge.state (⟨![3, 5]⟩ : Sponge (ZMod 11) 1 2) j + ![2] ⟨j.val, hj⟩) ∧
        (∀ j : Fin 2, 1 ≤ j.val →
          mixed j = Sponge.state (⟨![3, 5]⟩ : Sponge (ZMod 11) 1 2) j)) ∧
    ((((Sponge.new 2 4 (fun _ => (0 : ZMod 11))).bind
        (fun s => s.absorb rot4 ![1, 2])).bind
      (fun s => s.absorb rot4 ![1, 4])).map (fun s => List.ofFn s.state) =
      some [4, 0, 1, 3])) :=
  ⟨by norm_num,
    C5_absorb (ZMod 11) 1 2 rot2 ⟨![3, 5]⟩ ![2] (by norm_num)⟩

/-- Claim C6: `squeeze` returns lanes `0..RATE` of the pre-call state, then
applies the permutation exactly once, so the post-call state is the
permutation of the pre-call state and the returned block is unaffected by the
post-squeeze permutation; in addition the Rust test vector: two squeezes
after absorbing `[0,0]` into `[1,2,3,4]` under left-rotate-by-one give
`[2,3]` then `[3,4]`. -/
theorem C6_squeeze (F : Type) [Field F] (RATE N : Nat)
    (p : (Fin N → F) → Fin N → F) (s : Sponge F RATE N) (h : RATE ≤ N) :
    (s.squeeze p = some (fun i => s.state (Fin.castLE h i), ⟨p s.state⟩)) ∧
    ((((Sponge.new 2 4 (![1, 2, 3, 4] : Fin 4 → ZMod 11)).bind
        (fun s => s.absorb rot4 ![0, 0])).bind
      (fun s => (s.squeeze rot4).bind
        (fun x => (x.2.squeeze rot4).map (fun y => (List.ofFn x.1, List.ofFn y.1))))) =
      some ([2, 3], [3, 4])) := by
  refine ⟨?_, by decide⟩
  unfold Sponge.squeeze
  rw [dif_pos h]

/-- Witness for C6 at `RATE = 1`, `N = 2`, state `[3,5]`. -/
theorem C6_squeeze_witness :
    (1 ≤ 2) ∧
    ((Sponge.squeeze rot2 (⟨![3, 5]⟩ : Sponge (ZMod 11) 1 2) =
        some (fun i => Sponge.state (⟨![3, 5]⟩ : Sponge (ZMod 11) 1 2)
          (Fin.castLE (by norm_num) i), ⟨rot2 ![3, 5]⟩)) ∧
    ((((Sponge.new 2 4 (![1, 2, 3, 4] : Fin 4 → ZMod 11)).bind
        (fun s => s.absorb rot4 ![0, 0])).bind
      (fun s => (s.squeeze rot4).bind
        (fun x => (x.2.squeeze rot4).map (fun y => (List.ofFn x.1, List.ofFn y.1))))) =
      some ([2, 3], [3, 4]))) :=
  ⟨by norm_num, C6_squeeze (ZMod 11) 1 2 rot2 ⟨![3, 5]⟩ (by norm_num)⟩

/-- Counterexample to claim C7 as stated: the configuration `shortCfg` has a
round-constant sequence that is too short (0 constants where 2 are needed);
nothing rejects it at construction, and the failure surfaces during the
permutation call itself, which aborts (`none`). -/
theorem C7_counterexample : perm shortCfg ![0] = none := by decide

/-- Claim C7 (amended): the rate/capacity check is performed at sponge
construction and absorb/squeeze on a validly constructed sponge never fail;
but an insufficient round-constant sequence is not rejected at construction:
it makes the permutation call itself abort. -/
theorem C7_config_errors (F : Type) [Field F] (RATE N T : Nat)
    (start : Fin N → F) (p : (Fin N → F) → Fin N → F) (s : Sponge F RATE N)
    (input : Fin RATE → F) (cfg : PoseidonConfig F T) (st : Fin T → F)
    (h : RATE ≤ N)
    (hshort : cfg.round_constants.length <
      cfg.R_F / 2 * T + cfg.R_P * T + cfg.R_F / 2 * T) :
    (Sponge.new RATE N start).isSome ∧
    ((s.absorb p input).isSome ∧ (s.squeeze p).isSome) ∧
    perm cfg st = none := by
  refine ⟨?_, ⟨?_, ?_⟩, ?_⟩
  · unfold Sponge.new
    rw [if_pos h]
    rfl
  · unfold Sponge.absorb
    rw [dif_pos h]
    rfl
  · unfold Sponge.squeeze
    rw [dif_pos h]
    rfl
  · cases hp : perm cfg st with
    | none => rfl
    | some o =>
        exfalso
        unfold perm at hp
        cases hpf : permFull cfg st with
        | none => rw [hpf] at hp; cases hp
        | some pf =>
            have hlen := (permFull_consumed hpf).2
            generalize hA : cfg.R_F / 2 * T = A at hlen hshort
            generalize hB : cfg.R_P * T = B at hlen hshort
            omega

/-- Witness for C7 (amended) at `shortCfg` and a `RATE = 1`, `N = 2` sponge. -/
theorem C7_config_errors_witness :
    (1 ≤ 2 ∧ shortCfg.round_constants.length <
      shortCfg.R_F / 2 * 1 + shortCfg.R_P * 1 + shortCfg.R_F / 2 * 1) ∧
    ((Sponge.new 1 2 (![0, 0] : Fin 2 → ZMod 11)).isSome ∧
      ((Sponge.absorb capPerm (⟨![0, 0]⟩ : Sponge (ZMod 11) 1 2) ![1]).isSome ∧
        (Sponge.squeeze capPerm (⟨![0, 0]⟩ : Sponge (ZMod 11) 1 2)).isSome) ∧
      perm shortCfg ![0] = none) :=
  ⟨⟨by norm_num, by decide⟩,
    C7_config_errors (ZMod 11) 1 2 1 ![0, 0] capPerm ⟨![0, 0]⟩ ![1] shortCfg ![0]
      (by norm_num) (by decide)⟩

/-- Claim C8: the permutation and the sponge hash are pure deterministic
functions: equal inputs give equal outputs. -/
theorem C8_determinism (F : Type) [Field F] (T : Nat)
    (cfg cfg' : PoseidonConfig F T) (st st' : Fin T → F)
    (p : (Fin 3 → F) → Fin 3 → F) (input input' : List F)
    (hc : cfg = cfg') (hs : st = st') (hi : input = input') :
    perm cfg st = perm cfg' st' ∧ sponge_hash p input = sponge_hash p input' := by
  subst hc
  subst hs
  subst hi
  exact ⟨rfl, rfl⟩

/-- Witness for C8 at `constCfg` and a three-element input. -/
theorem C8_determinism_witness :
    (constCfg = constCfg ∧ (![1, 1, 1] : Fin 3 → ZMod 11) = ![1, 1, 1] ∧
      ([1, 2, 3] : List (ZMod 11)) = [1, 2, 3]) ∧
    (perm constCfg ![1, 1, 1] = perm constCfg ![1, 1, 1] ∧
      sponge_hash (rot3 (G := ZMod 11)) [1, 2, 3] =
        sponge_hash (rot3 (G := ZMod 11)) [1, 2, 3]) :=
  ⟨⟨rfl, rfl, rfl⟩,
    C8_determinism (ZMod 11) 3 constCfg constCfg ![1, 1, 1] ![1, 1, 1]
      (rot3 (G := ZMod 11)) [1, 2, 3] [1, 2, 3] rfl rfl rfl⟩

/-- Counterexample to claim C9 as stated: `capPerm` is a non-identity
permutation, the sponge `⟨[0,0]⟩` (`RATE = 1`, `N = 2`) is validly
constructed, yet two consecutive squeezes both return `[0]`, because the
permutation only alters the capacity lane. -/
theorem C9_counterexample :
    capPerm ≠ id ∧
    (Sponge.new 1 2 (![0, 0] : Fin 2 → ZMod 11)).map (fun s => List.ofFn s.state) =
      some [0, 0] ∧
    (Sponge.squeeze capPerm (⟨![0, 0]⟩ : Sponge (ZMod 11) 1 2)).map
      (fun x => List.ofFn x.1) = some [0] ∧
    ((Sponge.squeeze capPerm (⟨![0, 0]⟩ : Sponge (ZMod 11) 1 2)).bind
      (fun x => Sponge.squeeze capPerm x.2)).map (fun x => List.ofFn x.1) =
      some [0] := by
  refine ⟨?_, by decide, by decide, by decide⟩
  intro h
  have h1 := congrFun (congrFun h ![0, 0]) 1
  simp [capPerm] at h1

/-- Claim C9 (amended): two consecutive squeezes return different blocks
whenever the permutation changes the rate portion of the pre-call state
(for a permutation that moves only capacity lanes the blocks can coincide). -/
theorem C9_squeeze_rerandomization (F : Type) [Field F] (RATE N : Nat)
    (p : (Fin N → F) → Fin N → F) (s : Sponge F RATE N) (h : RATE ≤ N)
    (hchange : ∃ i : Fin RATE, p s.state (Fin.castLE h i) ≠ s.state (Fin.castLE h i)) :
    ∃ out1 s1 out2 s2,
      s.squeeze p = some (out1, s1) ∧ s1.squeeze p = some (out2, s2) ∧
        out1 ≠ out2 := by
  obtain ⟨i, hi⟩ := hchange
  refine ⟨fun i => s.state (Fin.castLE h i), ⟨p s.state⟩,
    fun i => (p s.state) (Fin.castLE h i), ⟨p (p s.state)⟩, ?_, ?_, ?_⟩
  · unfold Sponge.squeeze
    rw [dif_pos h]
  · unfold Sponge.squeeze
    rw [dif_pos h]
  · intro heq
    exact hi ((congrFun heq i).symm)

/-- Witness for C9 (amended): left-rotate-by-one on state `[1,2]` changes
lane 0, and the two squeeze outputs differ. -/
theorem C9_squeeze_rerandomization_witness :
    (1 ≤ 2 ∧ (∃ i : Fin 1, rot2 (![1, 2] : Fin 2 → ZMod 11)
        (Fin.castLE (by norm_num) i) ≠ (![1, 2] : Fin 2 → ZMod 11)
        (Fin.castLE (by norm_num) i))) ∧
    (∃ out1 s1 out2 s2,
      Sponge.squeeze rot2 (⟨![1, 2]⟩ : Sponge (ZMod 11) 1 2) = some (out1, s1) ∧
      s1.squeeze rot2 = some (out2, s2) ∧ out1 ≠ out2) :=
  ⟨⟨by norm_num, ⟨0, by decide⟩⟩,
    C9_squeeze_rerandomization (ZMod 11) 1 2 rot2 ⟨![1, 2]⟩ (by norm_num)
      ⟨0, by decide⟩⟩

/-- Claim C10: with odd `R_F` the permutation does not fail when the
constants satisfy the `T·(R_F+R_P)` invariant: it silently performs
`2·⌊R_F/2⌋` full rounds, consuming only `T·(2·⌊R_F/2⌋+R_P)` constants,
strictly fewer than `T·(R_F+R_P)`; concretely, at `T = 1`, `R_F = 3`,
`R_P = 0` with identity matrix, zero constants and S-box `x^5`, the output
is `a^(5^2)` (two S-box applications, not three). -/
theorem C10_odd_RF (F : Type) [Field F] (T : Nat) (cfg : PoseidonConfig F T)
    (st : Fin T → F) (hT : 0 < T) (hOdd : cfg.R_F % 2 = 1)
    (hlen : T * (cfg.R_F + cfg.R_P) ≤ cfg.round_constants.length) :
    (∃ out, perm cfg st = some out) ∧
    (∀ out, permFull cfg st = some out →
        out.2 = T * (2 * (cfg.R_F / 2) + cfg.R_P) ∧
        out.2 < T * (cfg.R_F + cfg.R_P)) ∧
    (∀ (G : Type) [Field G] (a : G), perm (oddCfg G) ![a] = some ![a ^ 25]) := by
  have hsum : cfg.R_F / 2 * T + cfg.R_P * T + cfg.R_F / 2 * T
      = T * (2 * (cfg.R_F / 2) + cfg.R_P) := by ring
  have hlt : T * (2 * (cfg.R_F / 2) + cfg.R_P) < T * (cfg.R_F + cfg.R_P) := by
    have h1 : 2 * (cfg.R_F / 2) + cfg.R_P < cfg.R_F + cfg.R_P := by omega
    exact Nat.mul_lt_mul_of_le_of_lt (le_refl T) h1 hT
  refine ⟨?_, ?_, ?_⟩
  · obtain ⟨st', hsome⟩ := permFull_some_of cfg st hT (by rw [hsum]; omega)
    exact ⟨st', by unfold perm; rw [hsome]; rfl⟩
  · intro out hout
    have hc := permFull_consumed (T := T) hout
    constructor
    · rw [hc.1, hsum]
    · rw [hc.1, hsum]
      exact hlt
  · intro G _ a
    exact perm_oddCfg a

/-- Witness for C10 at `oddCfg` over `ZMod 11` and state `[2]`. -/
theorem C10_odd_RF_witness :
    (0 < 1 ∧ (oddCfg (ZMod 11)).R_F % 2 = 1 ∧
      1 * ((oddCfg (ZMod 11)).R_F + (oddCfg (ZMod 11)).R_P) ≤
        (oddCfg (ZMod 11)).round_constants.length) ∧
    ((∃ out, perm (oddCfg (ZMod 11)) ![2] = some out) ∧
      (∀ out, permFull (oddCfg (ZMod 11)) ![2] = some out →
        out.2 = 1 * (2 * ((oddCfg (ZMod 11)).R_F / 2) + (oddCfg (ZMod 11)).R_P) ∧
        out.2 < 1 * ((oddCfg (ZMod 11)).R_F + (oddCfg (ZMod 11)).R_P)) ∧
      (∀ (G : Type) [Field G] (a : G), perm (oddCfg G) ![a] = some ![a ^ 25])) :=
  ⟨⟨by norm_num, by decide, by decide⟩,
    C10_odd_RF (ZMod 11) 1 (oddCfg (ZMod 11)) ![2] (by norm_num) (by decide)
      (by decide)⟩
